import Mathlib

/-!
# Verification of the largest-uniform-rectangle finder of `simdat`

Shallow embedding of `TOOLS.max_size`, `TOOLS.max_rectangle_size` and
`TOOLS.area` from `src/core/tools.py`, together with proofs about them.

Conventions of the embedding:
* Python ints are modelled as `Nat` where the source only ever produces
  non-negative values, and as `Int` where a subtraction may go negative
  (the returned `y` coordinate).
* The boolean histogram entries produced for the first row (`el == value`)
  are modelled as `0`/`1`, matching Python arithmetic on `bool`.
* The Python stack list has its last element as top; here the stack is a
  `List Info` whose head is the top, and the final flush loop, which walks
  the Python list from bottom to top, walks `stack.reverse`.
-/

namespace Simdat

/-- `TOOLS.area`: `reduce(mul, size)`, the product of height and width. -/
def area (size : Nat × Nat) : Nat := size.1 * size.2

/-- Python `max(a, b, key=self.area)`: yields `b` exactly when `b` has
strictly larger area, keeping the first argument `a` on area ties. -/
def maxByArea (a b : Nat × Nat) : Nat × Nat := if area a < area b then b else a

/-- The stack frame `Info = namedtuple('Info', 'start height')` of
`max_rectangle_size`. -/
structure Info where
  start : Nat
  height : Nat
deriving DecidableEq

/-- The inner `while True` loop of `max_rectangle_size` for one column.
The stack has its top at the head.  Branches, in source order: empty stack
pushes `(start, height)`; a strictly higher current bar pushes; a strictly
lower current bar folds the top frame's candidate `(top.height, pos - top.start)`
into the best by area, pops, moves `start` to the popped frame's start and
continues; equal heights leave the stack unchanged. -/
def popLoop : List Info → (Nat × Nat) → Nat → Nat → Nat → List Info × (Nat × Nat)
  | [], best, _pos, start, height => ([Info.mk start height], best)
  | top :: rest, best, pos, start, height =>
    if top.height < height then (Info.mk start height :: top :: rest, best)
    else if height < top.height then
      popLoop rest (maxByArea best (top.height, pos - top.start)) pos top.start height
    else (top :: rest, best)

/-- The `for pos, height in enumerate(histogram)` loop of
`max_rectangle_size`: runs `popLoop` on each bar, with `start`
initialised to `pos`. -/
def scanLoop : List Nat → Nat → List Info → (Nat × Nat) → List Info × (Nat × Nat)
  | [], _pos, stack, best => (stack, best)
  | h :: hs, pos, stack, best =>
    match popLoop stack best pos pos h with
    | (stack1, best1) => scanLoop hs (pos + 1) stack1 best1

/-- The final `for start, height in stack` flush of `max_rectangle_size`:
for each remaining frame it forms `_max_size = max(best, (height, pos - start))`
by area and, whenever `area _max_size >= area best` (which the source tests
literally), replaces both the best and the recorded start column. -/
def flushLoop : List Info → (Nat × Nat) → Nat → Nat → (Nat × Nat) × Nat
  | [], best, start_pos, _pos => (best, start_pos)
  | f :: fs, best, start_pos, pos =>
    let m := maxByArea best (f.height, pos - f.start)
    if area best ≤ area m then flushLoop fs m f.start pos
    else flushLoop fs best start_pos pos

/-- `TOOLS.max_rectangle_size(histogram)`: scan all bars, then flush the
remaining stack at `pos + 1` (which is `histogram.length` for a non-empty
histogram and `1` for the empty one, since Python initialises `pos = 0`
before the loop).  Returns `(max_size, start_pos)`. -/
def max_rectangle_size (histogram : List Nat) : (Nat × Nat) × Nat :=
  match scanLoop histogram 0 [] (0, 0) with
  | (stack, best) =>
    flushLoop stack.reverse best 0 (if histogram.isEmpty then 1 else histogram.length)

/-- First-row histogram of `max_size`: `[(el == value) for el in next(it, [])]`,
with Python booleans rendered as `0`/`1`. -/
def initHist {α : Type} [DecidableEq α] (row : List α) (value : α) : List Nat :=
  row.map (fun el => if el = value then 1 else 0)

/-- Histogram update of `max_size`:
`[(1+h) if el == value else 0 for h, el in zip(hist, row)]`.
As in Python, `zip` silently truncates to the shorter of the two lists. -/
def updateHist {α : Type} [DecidableEq α] (hist : List Nat) (row : List α)
    (value : α) : List Nat :=
  (hist.zip row).map (fun p => if p.2 = value then 1 + p.1 else 0)

/-- The `for row in it` loop of `max_size`.  State: current histogram,
best `(height, width)`, its recorded `start_pos`, the row index `start_row`
of the best, and the running `counter`.  The best is replaced only on a
strictly larger area. -/
def scanRows {α : Type} [DecidableEq α] :
    List (List α) → α → List Nat → (Nat × Nat) → Nat → Nat → Nat →
      List Nat × (Nat × Nat) × Nat × Nat
  | [], _value, hist, best, sp, sr, _counter => (hist, best, sp, sr)
  | row :: rows, value, hist, best, sp, sr, counter =>
    let hist1 := updateHist hist row value
    match max_rectangle_size hist1 with
    | (m, s) =>
      if area best < area m then scanRows rows value hist1 m s (counter + 1) (counter + 1)
      else scanRows rows value hist1 best sp sr (counter + 1)

/-- `TOOLS.max_size(mat, value)`: build the first histogram from the first
row (an empty list when the matrix has no rows, via `next(it, [])`), solve
it, fold the remaining rows, then recover the reported position:
`y = start_row - height + 1` (an `Int`, as in Python it may differ from any
row index) and `x = 0` when the width equals the final histogram's length,
else `min(abs(start_pos - width + 1), start_pos)`.
Returns `((height, width), (y, x))`. -/
def max_size {α : Type} [DecidableEq α] (mat : List (List α)) (value : α) :
    (Nat × Nat) × (Int × Nat) :=
  let hist0 := initHist (mat.headD []) value
  match max_rectangle_size hist0 with
  | (best0, sp0) =>
    match scanRows mat.tail value hist0 best0 sp0 0 0 with
    | (hist, best, sp, sr) =>
      let y : Int := (sr : Int) - best.1 + 1
      let x : Nat :=
        if best.2 = hist.length then 0
        else min (((sp : Int) - best.2 + 1).natAbs) sp
      (best, (y, x))

/-! ## Reference definitions for the specification side

These are not part of the embedding of the source; they state, directly
from first principles, what a maximal rectangle under a histogram and a
maximal uniform sub-rectangle of a matrix are, so that the claims about
`max_rectangle_size` and `max_size` can be phrased against them. -/

/-- Minimum of a list of naturals; `0` on the empty list (which is only
ever applied to non-empty slices below, or multiplied by a zero width). -/
def listMin : List Nat → Nat
  | [] => 0
  | [a] => a
  | a :: b :: t => min a (listMin (b :: t))

/-- Area `(j - i) * min histogram[i..j)` of the rectangle spanning columns
`[i, j)` under the histogram (with truncated `Nat` subtraction, `0` when
`j ≤ i`). -/
def rectArea (l : List Nat) (i j : Nat) : Nat :=
  (j - i) * listMin ((l.take j).drop i)

/-- Maximum of `rectArea` over all index pairs `0 ≤ i, j ≤ length`. -/
def bruteMax (l : List Nat) : Nat :=
  (Finset.range (l.length + 1) ×ˢ Finset.range (l.length + 1)).sup
    (fun p => rectArea l p.1 p.2)

/-- The cell of a matrix at row `r`, column `c`, if it exists. -/
def cell {α : Type} (mat : List (List α)) (r c : Nat) : Option α :=
  (mat[r]?).bind (fun row => row[c]?)

/-- The `h × w` sub-rectangle with top-left corner `(t, l)` exists in the
matrix and all its cells equal `value`. -/
def isUniform {α : Type} [DecidableEq α] (mat : List (List α)) (value : α)
    (t l h w : Nat) : Prop :=
  ∀ dr < h, ∀ dc < w, cell mat (t + dr) (l + dc) = some value

instance {α : Type} [DecidableEq α] (mat : List (List α)) (value : α)
    (t l h w : Nat) : Decidable (isUniform mat value t l h w) := by
  unfold isUniform
  infer_instance

/-- Maximum area of a uniform sub-rectangle of the matrix (`0` when the
value never occurs, via the empty rectangle). -/
def maxUniformArea {α : Type} [DecidableEq α] (mat : List (List α)) (value : α) : Nat :=
  ((Finset.range (mat.length + 1) ×ˢ Finset.range ((mat.headD []).length + 1)) ×ˢ
      (Finset.range (mat.length + 1) ×ˢ Finset.range ((mat.headD []).length + 1))).sup
    (fun q => if isUniform mat value q.1.1 q.1.2 q.2.1 q.2.2 then q.2.1 * q.2.2 else 0)

/-- The histogram held by `max_size` after processing rows `0..r` of the
matrix: row `0` through `initHist`, later rows through `updateHist`. -/
def histAt {α : Type} [DecidableEq α] (mat : List (List α)) (value : α) : Nat → List Nat
  | 0 => initHist (mat.headD []) value
  | r + 1 => updateHist (histAt mat value r) (mat.getD (r + 1) []) value

/-- Vertical run length of `value` in column `c` ending at row `r`: the
number of consecutive rows up to and including `r` whose cell in column
`c` equals `value` (the reference notion of what the histogram holds). -/
def runLen {α : Type} [DecidableEq α] (mat : List (List α)) (value : α) : Nat → Nat → Nat
  | 0, c => if cell mat 0 c = some value then 1 else 0
  | r + 1, c => if cell mat (r + 1) c = some value then runLen mat value r c + 1 else 0

/-- Candidate areas `height * (pos - start)` of the frames of a stack. -/
def candList (stack : List Info) (pos : Nat) : List Nat :=
  stack.map (fun f => f.height * (pos - f.start))

/-- Maximum of a list of naturals with default `0`. -/
def maxList (l : List Nat) : Nat := l.foldr max 0

/-- Invariant of the scan loop of `max_rectangle_size` after the first
`e` columns of `l` have been consumed (the stack's head is its top):
the frames tile `[0, e)` from the right, and on the tile `[f.start, e)`
of the top frame `f` the suffix-minimum function `i ↦ min l[i..)` is
constantly `f.height`; heights strictly decrease downward. -/
inductive IsStack (l : List Nat) : List Info → Nat → Prop where
  | nil : IsStack l [] 0
  | cons (f : Info) (rest : List Info) (e : Nat)
      (hlt : f.start < e)
      (hlevel : ∀ i, f.start ≤ i → i < e → listMin (l.drop i) = f.height)
      (hbelow : ∀ g ∈ rest, g.height < f.height)
      (hrest : IsStack l rest f.start) : IsStack l (f :: rest) e

/-! ## Basic lemmas about the embedded operations -/

theorem area_maxByArea (a b : Nat × Nat) :
    area (maxByArea a b) = max (area a) (area b) := by
  unfold maxByArea
  split <;> omega

theorem le_area_maxByArea (a b : Nat × Nat) : area a ≤ area (maxByArea a b) := by
  rw [area_maxByArea]
  exact le_max_left _ _

/-! ## Lemmas about `listMin` and `maxList` -/

theorem listMin_cons_of_ne (a : Nat) {l : List Nat} (h : l ≠ []) :
    listMin (a :: l) = min a (listMin l) := by
  cases l with
  | nil => exact absurd rfl h
  | cons b t => rfl

theorem listMin_le_of_mem {x : Nat} {l : List Nat} (h : x ∈ l) : listMin l ≤ x := by
  induction l with
  | nil => cases h
  | cons a t ih =>
    cases t with
    | nil =>
      rcases List.mem_singleton.mp h with rfl
      exact le_refl _
    | cons b t2 =>
      rw [listMin_cons_of_ne a (by simp)]
      rcases List.mem_cons.mp h with rfl | hm
      · exact min_le_left _ _
      · exact le_trans (min_le_right _ _) (ih hm)

theorem le_listMin {q : Nat} {l : List Nat} (hne : l ≠ [])
    (h : ∀ x ∈ l, q ≤ x) : q ≤ listMin l := by
  induction l with
  | nil => exact absurd rfl hne
  | cons a t ih =>
    cases t with
    | nil => exact h a (by simp)
    | cons b t2 =>
      rw [listMin_cons_of_ne a (by simp)]
      exact le_min (h a (by simp)) (ih (by simp) (fun x hx => h x (List.mem_cons_of_mem a hx)))

theorem listMin_mem {l : List Nat} (hne : l ≠ []) : listMin l ∈ l := by
  induction l with
  | nil => exact absurd rfl hne
  | cons a t ih =>
    cases t with
    | nil => simp [listMin]
    | cons b t2 =>
      rw [listMin_cons_of_ne a (by simp)]
      rcases min_cases a (listMin (b :: t2)) with ⟨he, _⟩ | ⟨he, _⟩
      · rw [he]; exact List.mem_cons_self a _
      · rw [he]; exact List.mem_cons_of_mem a (ih (by simp))

theorem listMin_append_singleton {l : List Nat} (a : Nat) (hne : l ≠ []) :
    listMin (l ++ [a]) = min (listMin l) a := by
  induction l with
  | nil => exact absurd rfl hne
  | cons b t ih =>
    cases t with
    | nil => rfl
    | cons c t2 =>
      rw [List.cons_append, listMin_cons_of_ne b (by simp),
        listMin_cons_of_ne b (by simp), ih (by simp), min_assoc]

theorem maxList_le {l : List Nat} {M : Nat} (h : ∀ x ∈ l, x ≤ M) : maxList l ≤ M := by
  induction l with
  | nil => exact Nat.zero_le _
  | cons a t ih =>
    exact max_le (h a (by simp)) (ih (fun x hx => h x (List.mem_cons_of_mem a hx)))

theorem le_maxList {x : Nat} {l : List Nat} (h : x ∈ l) : x ≤ maxList l := by
  induction l with
  | nil => cases h
  | cons a t ih =>
    rcases List.mem_cons.mp h with rfl | hm
    · exact le_max_left _ _
    · exact le_trans (ih hm) (le_max_right _ _)

theorem maxList_append_singleton (l : List Nat) (a : Nat) :
    maxList (l ++ [a]) = max (maxList l) a := by
  induction l with
  | nil => simp [maxList]
  | cons b t ih =>
    show max b (maxList (t ++ [a])) = max (max b (maxList t)) a
    rw [ih, max_assoc]

theorem maxList_reverse (l : List Nat) : maxList l.reverse = maxList l := by
  induction l with
  | nil => rfl
  | cons a t ih =>
    rw [List.reverse_cons, maxList_append_singleton, ih]
    exact max_comm _ _

/-! ## Lemmas about slices, `rectArea` and `bruteMax` -/

theorem drop_ne_nil {l : List Nat} {i : Nat} (h : i < l.length) : l.drop i ≠ [] := by
  intro he
  have := List.drop_eq_nil_iff.mp he
  omega

theorem drop_append_min {l : List Nat} {i : Nat} (a : Nat) (h : i < l.length) :
    listMin ((l ++ [a]).drop i) = min (listMin (l.drop i)) a := by
  rw [List.drop_append_of_le_length (le_of_lt h)]
  exact listMin_append_singleton a (drop_ne_nil h)

theorem drop_append_length {l : List Nat} (a : Nat) :
    listMin ((l ++ [a]).drop l.length) = a := by
  rw [List.drop_append_of_le_length (le_refl _), List.drop_length]
  rfl

theorem rectArea_append {l : List Nat} {i j : Nat} (a : Nat) (h : j ≤ l.length) :
    rectArea (l ++ [a]) i j = rectArea l i j := by
  unfold rectArea
  rw [List.take_append_of_le_length h]

theorem le_bruteMax {l : List Nat} {i j : Nat} (hi : i ≤ l.length) (hj : j ≤ l.length) :
    rectArea l i j ≤ bruteMax l := by
  refine Finset.le_sup (f := fun p : Nat × Nat => rectArea l p.1 p.2)
    (b := (i, j)) ?_
  rw [Finset.mem_product]
  constructor <;> rw [Finset.mem_range] <;> omega

theorem bruteMax_le {l : List Nat} {M : Nat}
    (h : ∀ i j, i ≤ l.length → j ≤ l.length → rectArea l i j ≤ M) :
    bruteMax l ≤ M := by
  refine Finset.sup_le ?_
  intro p hp
  rw [Finset.mem_product, Finset.mem_range, Finset.mem_range] at hp
  exact h p.1 p.2 (by omega) (by omega)

theorem rectArea_of_le {l : List Nat} {i j : Nat} (h : j ≤ i) : rectArea l i j = 0 := by
  unfold rectArea
  rw [Nat.sub_eq_zero_of_le h, Nat.zero_mul]

theorem bruteMax_mono_append (l : List Nat) (a : Nat) :
    bruteMax l ≤ bruteMax (l ++ [a]) := by
  refine bruteMax_le ?_
  intro i j hi hj
  rw [← rectArea_append a hj]
  refine le_bruteMax ?_ ?_ <;> rw [List.length_append] <;> simp <;> omega

/-! ## Lemmas about the scan invariant `IsStack` -/

theorem isStack_nil_elim {l : List Nat} {e : Nat} (hs : IsStack l [] e) : e = 0 := by
  cases hs
  rfl

theorem isStack_frame_level {l : List Nat} {s : List Info} {e : Nat}
    (hs : IsStack l s e) :
    ∀ f ∈ s, f.start < e ∧ listMin (l.drop f.start) = f.height := by
  induction hs with
  | nil => intro f hf; cases hf
  | cons f rest e hlt hlevel hbelow hrest ih =>
    intro g hg
    rcases List.mem_cons.mp hg with rfl | hg2
    · exact ⟨hlt, hlevel g.start (le_refl _) hlt⟩
    · obtain ⟨h1, h2⟩ := ih g hg2
      exact ⟨lt_trans h1 hlt, h2⟩

theorem isStack_cover {l : List Nat} {s : List Info} {e : Nat}
    (hs : IsStack l s e) :
    ∀ i < e, ∃ f ∈ s, f.start ≤ i ∧ listMin (l.drop i) = f.height := by
  induction hs with
  | nil => intro i hi; omega
  | cons f rest e hlt hlevel hbelow hrest ih =>
    intro i hi
    rcases Nat.lt_or_ge i f.start with h1 | h1
    · obtain ⟨g, hg, hgs, hgm⟩ := ih i h1
      exact ⟨g, List.mem_cons_of_mem f hg, hgs, hgm⟩
    · exact ⟨f, List.mem_cons_self f rest, h1, hlevel i h1 hi⟩

theorem isStack_append {l : List Nat} {s : List Info} {e H : Nat}
    (hs : IsStack l s e) (he : e ≤ l.length) (hH : ∀ f ∈ s, f.height ≤ H) :
    IsStack (l ++ [H]) s e := by
  induction hs with
  | nil => exact IsStack.nil
  | cons f rest e hlt hlevel hbelow hrest ih =>
    refine IsStack.cons f rest e hlt ?_ hbelow
      (ih (by omega) (fun g hg => le_of_lt
        (lt_of_lt_of_le (hbelow g hg) (hH f (List.mem_cons_self f rest)))))
    intro i hi0 hi1
    rw [drop_append_min H (by omega), hlevel i hi0 hi1]
    exact min_eq_left (hH f (List.mem_cons_self f rest))

/-- Full specification of one run of the inner `while` loop of the scan.
Starting from a well-formed stack for the prefix `l` whose frames tile
`[0, start)`, with every suffix minimum on `[start, l.length)` strictly
above the incoming bar `H`, the loop returns a well-formed stack for
`l ++ [H]`, only ever grows the best's area, grows it only by genuine
sub-rectangle areas of `l ++ [H]`, and every incoming frame's candidate
is dominated by the outgoing best or by an outgoing frame's candidate. -/
theorem popLoop_spec (l : List Nat) (H : Nat) :
    ∀ (stack : List Info) (best : Nat × Nat) (start : Nat),
      IsStack l stack start →
      start ≤ l.length →
      (∀ i, start ≤ i → i < l.length → H < listMin (l.drop i)) →
      IsStack (l ++ [H]) (popLoop stack best l.length start H).1 (l.length + 1) ∧
      area best ≤ area (popLoop stack best l.length start H).2 ∧
      area (popLoop stack best l.length start H).2 ≤
        max (area best) (bruteMax (l ++ [H])) ∧
      ∀ f ∈ stack, f.height * (l.length - f.start) ≤
        max (area (popLoop stack best l.length start H).2)
          (maxList (candList (popLoop stack best l.length start H).1 (l.length + 1))) := by
  intro stack
  induction stack with
  | nil =>
    intro best start hstk hle hreg
    have h0 : start = 0 := isStack_nil_elim hstk
    subst h0
    simp only [popLoop]
    refine ⟨?_, le_refl _, le_max_left _ _, by intro f hf; cases hf⟩
    refine IsStack.cons (Info.mk 0 H) [] (l.length + 1) (Nat.succ_pos _) ?_
      (by intro g hg; cases hg) IsStack.nil
    intro i hi0 hi1
    rcases Nat.lt_or_ge i l.length with hil | hil
    · rw [drop_append_min H hil]
      exact min_eq_right (le_of_lt (hreg i (Nat.zero_le _) hil))
    · have hieq : i = l.length := by omega
      subst hieq
      exact drop_append_length H
  | cons f rest ih =>
    intro best start hstk hle hreg
    cases hstk with
    | cons _ _ _ hlt hlevel hbelow hrest =>
      by_cases h1 : f.height < H
      · -- push branch: a strictly higher bar is stacked on top
        have hpl : popLoop (f :: rest) best l.length start H
            = (Info.mk start H :: f :: rest, best) := by
          simp only [popLoop]
          rw [if_pos h1]
        rw [hpl]
        refine ⟨?_, le_refl _, le_max_left _ _, ?_⟩
        · refine IsStack.cons (Info.mk start H) (f :: rest) (l.length + 1)
            (by show start < l.length + 1; omega) ?_ ?_ ?_
          · intro i hi0 hi1
            rcases Nat.lt_or_ge i l.length with hil | hil
            · rw [drop_append_min H hil]
              exact min_eq_right (le_of_lt (hreg i hi0 hil))
            · have hieq : i = l.length := by omega
              subst hieq
              exact drop_append_length H
          · intro g hg
            rcases List.mem_cons.mp hg with rfl | hg2
            · exact h1
            · exact lt_trans (hbelow g hg2) h1
          · refine isStack_append (IsStack.cons f rest start hlt hlevel hbelow hrest) hle ?_
            intro g hg
            rcases List.mem_cons.mp hg with rfl | hg2
            · exact le_of_lt h1
            · exact le_of_lt (lt_trans (hbelow g hg2) h1)
        · intro g hg
          have hmem : g.height * (l.length + 1 - g.start)
              ∈ candList (Info.mk start H :: f :: rest) (l.length + 1) :=
            List.mem_map_of_mem _ (List.mem_cons_of_mem _ hg)
          have hmul : g.height * (l.length - g.start) ≤ g.height * (l.length + 1 - g.start) :=
            Nat.mul_le_mul_left _ (by omega)
          exact le_trans (le_trans hmul (le_maxList hmem)) (le_max_right _ _)
      · by_cases h2 : H < f.height
        · -- pop branch: fold the top frame's candidate into the best and recurse
          have hpl : popLoop (f :: rest) best l.length start H
              = popLoop rest (maxByArea best (f.height, l.length - f.start))
                  l.length f.start H := by
            simp only [popLoop]
            rw [if_neg h1, if_pos h2]
          rw [hpl]
          have hreg2 : ∀ i, f.start ≤ i → i < l.length → H < listMin (l.drop i) := by
            intro i hi0 hi1
            rcases Nat.lt_or_ge i start with his | his
            · rw [hlevel i hi0 his]
              exact h2
            · exact hreg i his hi1
          obtain ⟨ha, hb, hc, hd⟩ :=
            ih (maxByArea best (f.height, l.length - f.start)) f.start hrest (by omega) hreg2
          have hcand : area (f.height, l.length - f.start) ≤ bruteMax (l ++ [H]) := by
            have hfh : listMin (l.drop f.start) = f.height :=
              hlevel f.start (le_refl _) hlt
            have hra : rectArea (l ++ [H]) f.start l.length
                = (l.length - f.start) * f.height := by
              unfold rectArea
              rw [List.take_left, hfh]
            have : rectArea (l ++ [H]) f.start l.length ≤ bruteMax (l ++ [H]) := by
              refine le_bruteMax ?_ ?_ <;> rw [List.length_append] <;> simp <;> omega
            rw [hra] at this
            calc area (f.height, l.length - f.start)
                = (l.length - f.start) * f.height := Nat.mul_comm _ _
              _ ≤ bruteMax (l ++ [H]) := this
          refine ⟨ha, le_trans (le_area_maxByArea _ _) hb, ?_, ?_⟩
          · refine le_trans hc ?_
            rw [area_maxByArea]
            exact max_le (max_le (le_max_left _ _)
              (le_trans hcand (le_max_right _ _))) (le_max_right _ _)
          · intro g hg
            rcases List.mem_cons.mp hg with rfl | hg2
            · have harea : g.height * (l.length - g.start) = area (g.height, l.length - g.start) := rfl
              have h3 : area (g.height, l.length - g.start)
                  ≤ area (maxByArea best (g.height, l.length - g.start)) := by
                rw [area_maxByArea]
                exact le_max_right _ _
              exact le_trans (le_of_eq harea) (le_trans (le_trans h3 hb) (le_max_left _ _))
            · exact hd g hg2
        · -- equal heights: the existing frame absorbs the new bar, nothing changes
          have heq : f.height = H := by omega
          have hpl : popLoop (f :: rest) best l.length start H = (f :: rest, best) := by
            simp only [popLoop]
            rw [if_neg h1, if_neg h2]
          rw [hpl]
          refine ⟨?_, le_refl _, le_max_left _ _, ?_⟩
          · refine IsStack.cons f rest (l.length + 1) (by omega) ?_ hbelow
              (isStack_append hrest (by omega)
                (fun g hg => le_of_lt (lt_of_lt_of_le (hbelow g hg) (le_of_eq heq))))
            intro i hi0 hi1
            rcases Nat.lt_or_ge i l.length with hil | hil
            · rw [drop_append_min H hil]
              rcases Nat.lt_or_ge i start with his | his
              · rw [hlevel i hi0 his, heq, min_self]
              · rw [min_eq_right (le_of_lt (hreg i his hil)), heq]
            · have hieq : i = l.length := by omega
              subst hieq
              rw [drop_append_length H, heq]
          · intro g hg
            have hmem : g.height * (l.length + 1 - g.start)
                ∈ candList (f :: rest) (l.length + 1) :=
              List.mem_map_of_mem _ hg
            have hmul : g.height * (l.length - g.start) ≤ g.height * (l.length + 1 - g.start) :=
              Nat.mul_le_mul_left _ (by omega)
            exact le_trans (le_trans hmul (le_maxList hmem)) (le_max_right _ _)

/-- Invariant of the whole scan: processing the remaining bars `rest`
after a prefix `pre` preserves well-formedness of the stack and the
equation `max(best area, best frame candidate) = bruteMax prefix`. -/
theorem scanLoop_spec :
    ∀ (rest pre : List Nat) (stack : List Info) (best : Nat × Nat),
      IsStack pre stack pre.length →
      max (area best) (maxList (candList stack pre.length)) = bruteMax pre →
      IsStack (pre ++ rest) (scanLoop rest pre.length stack best).1 (pre ++ rest).length ∧
      max (area (scanLoop rest pre.length stack best).2)
          (maxList (candList (scanLoop rest pre.length stack best).1 (pre ++ rest).length))
        = bruteMax (pre ++ rest) := by
  intro rest
  induction rest with
  | nil =>
    intro pre stack best hstk heqv
    rw [List.append_nil]
    exact ⟨hstk, heqv⟩
  | cons h hs ihr =>
    intro pre stack best hstk heqv
    obtain ⟨ha, hb, hc, hd⟩ := popLoop_spec pre h stack best pre.length hstk (le_refl _)
      (by intro i h1 h2; omega)
    have hlen : (pre ++ [h]).length = pre.length + 1 := by simp
    have heq1 : max (area (popLoop stack best pre.length pre.length h).2)
        (maxList (candList (popLoop stack best pre.length pre.length h).1 (pre.length + 1)))
        = bruteMax (pre ++ [h]) := by
      apply le_antisymm
      · apply max_le
        · refine le_trans hc (max_le ?_ (le_refl _))
          refine le_trans ?_ (bruteMax_mono_append pre h)
          rw [← heqv]
          exact le_max_left _ _
        · apply maxList_le
          intro x hx
          unfold candList at hx
          rcases List.mem_map.mp hx with ⟨f, hf, rfl⟩
          obtain ⟨hfs, hfm⟩ := isStack_frame_level ha f hf
          have ht : (pre ++ [h]).take (pre.length + 1) = pre ++ [h] :=
            List.take_of_length_le (by simp)
          have hra : rectArea (pre ++ [h]) f.start (pre.length + 1)
              = (pre.length + 1 - f.start) * f.height := by
            unfold rectArea
            rw [ht, hfm]
          have hle2 : rectArea (pre ++ [h]) f.start (pre.length + 1) ≤ bruteMax (pre ++ [h]) := by
            refine le_bruteMax ?_ ?_ <;> simp <;> omega
          rw [hra] at hle2
          rw [Nat.mul_comm]
          exact hle2
      · apply bruteMax_le
        intro i j hi hj
        rcases le_or_lt j i with hij | hij
        · rw [rectArea_of_le hij]
          exact Nat.zero_le _
        · rw [hlen] at hi hj
          rcases Nat.lt_or_ge j (pre.length + 1) with hjp | hjp
          · have hj2 : j ≤ pre.length := by omega
            rw [rectArea_append h hj2]
            have hold : rectArea pre i j ≤ bruteMax pre := le_bruteMax (by omega) hj2
            rw [← heqv] at hold
            refine le_trans hold (max_le (le_trans hb (le_max_left _ _)) ?_)
            apply maxList_le
            intro x hx
            unfold candList at hx
            rcases List.mem_map.mp hx with ⟨f, hf, rfl⟩
            exact hd f hf
          · have hje : j = pre.length + 1 := by omega
            subst hje
            have hi2 : i < pre.length + 1 := hij
            obtain ⟨f, hf, hfs, hfm⟩ := isStack_cover ha i hi2
            have ht : (pre ++ [h]).take (pre.length + 1) = pre ++ [h] :=
              List.take_of_length_le (by simp)
            have hra : rectArea (pre ++ [h]) i (pre.length + 1)
                = (pre.length + 1 - i) * f.height := by
              unfold rectArea
              rw [ht, hfm]
            rw [hra]
            have hc1 : (pre.length + 1 - i) * f.height
                ≤ f.height * (pre.length + 1 - f.start) := by
              rw [Nat.mul_comm]
              exact Nat.mul_le_mul_left _ (by omega)
            have hc2 : f.height * (pre.length + 1 - f.start)
                ∈ candList (popLoop stack best pre.length pre.length h).1 (pre.length + 1) :=
              List.mem_map_of_mem _ hf
            exact le_trans hc1 (le_trans (le_maxList hc2) (le_max_right _ _))
    have hres := ihr (pre ++ [h]) (popLoop stack best pre.length pre.length h).1
      (popLoop stack best pre.length pre.length h).2
      (by rw [hlen]; exact ha) (by rw [hlen]; exact heq1)
    rw [hlen, List.append_assoc, List.singleton_append] at hres
    exact hres

/-- Area delivered by the final flush: the maximum of the incoming best's
area and all remaining frame candidates. -/
theorem flushLoop_area (frames : List Info) (best : Nat × Nat) (sp pos : Nat) :
    area (flushLoop frames best sp pos).1 = max (area best) (maxList (candList frames pos)) := by
  induction frames generalizing best sp with
  | nil =>
    show area best = max (area best) (maxList [])
    show area best = max (area best) 0
    omega
  | cons f fs ih =>
    show area ((if area best ≤ area (maxByArea best (f.height, pos - f.start)) then
        flushLoop fs (maxByArea best (f.height, pos - f.start)) f.start pos
      else flushLoop fs best sp pos)).1 = _
    rw [if_pos (le_area_maxByArea _ _), ih, area_maxByArea]
    show _ = max (area best) (max (f.height * (pos - f.start)) (maxList (candList fs pos)))
    rw [max_assoc]
    rfl

/-- The solver returns the true maximal rectangle area under the
histogram: helper form used both for the claim about the solver and for
the matrix-level claim. -/
theorem solver_area (hs : List Nat) : area (max_rectangle_size hs).1 = bruteMax hs := by
  cases hs with
  | nil => decide
  | cons a t =>
    obtain ⟨hstk, heqv⟩ := scanLoop_spec (a :: t) [] [] (0, 0) IsStack.nil (by decide)
    rw [List.nil_append] at hstk heqv
    show area (flushLoop (scanLoop (a :: t) 0 [] (0, 0)).1.reverse
      (scanLoop (a :: t) 0 [] (0, 0)).2 0
      (if (a :: t).isEmpty then 1 else (a :: t).length)).1 = bruteMax (a :: t)
    rw [List.isEmpty_cons, if_neg (by simp), flushLoop_area]
    have hrev : candList (scanLoop (a :: t) 0 [] (0, 0)).1.reverse ((a :: t).length)
        = (candList (scanLoop (a :: t) 0 [] (0, 0)).1 ((a :: t).length)).reverse := by
      unfold candList
      exact List.map_reverse _ _
    rw [hrev, maxList_reverse]
    exact heqv

/-! ## The histogram as per-column run lengths -/

theorem updateHist_length {α : Type} [DecidableEq α]
    (hist : List Nat) (row : List α) (value : α) :
    (updateHist hist row value).length = min hist.length row.length := by
  unfold updateHist
  rw [List.length_map, List.length_zip]

theorem updateHist_getElem? {α : Type} [DecidableEq α] :
    ∀ (hist : List Nat) (row : List α) (value : α) (c : Nat) (hv : Nat) (el : α),
      hist[c]? = some hv → row[c]? = some el →
      (updateHist hist row value)[c]? = some (if el = value then 1 + hv else 0) := by
  intro hist
  induction hist with
  | nil =>
    intro row value c hv el h1 h2
    simp at h1
  | cons h hs ih =>
    intro row value c hv el h1 h2
    cases row with
    | nil => simp at h2
    | cons e es =>
      cases c with
      | zero =>
        simp only [List.getElem?_cons_zero, Option.some.injEq] at h1 h2
        subst h1
        subst h2
        show ((if e = value then 1 + h else 0) :: updateHist hs es value)[0]? = _
        rw [List.getElem?_cons_zero]
      | succ c2 =>
        rw [List.getElem?_cons_succ] at h1 h2
        show ((if e = value then 1 + h else 0) :: updateHist hs es value)[c2 + 1]? = _
        rw [List.getElem?_cons_succ]
        exact ih es value c2 hv el h1 h2

theorem initHist_getElem? {α : Type} [DecidableEq α] (row : List α) (value : α)
    (c : Nat) (el : α) (h : row[c]? = some el) :
    (initHist row value)[c]? = some (if el = value then 1 else 0) := by
  unfold initHist
  rw [List.getElem?_map, h]
  rfl

theorem histAt_length {α : Type} [DecidableEq α] {mat : List (List α)} {value : α}
    {W : Nat} (hW : ∀ row ∈ mat, row.length = W) :
    ∀ r, r < mat.length → (histAt mat value r).length = W := by
  intro r
  induction r with
  | zero =>
    intro h0
    cases mat with
    | nil => simp at h0
    | cons m0 rest =>
      show (initHist m0 value).length = W
      unfold initHist
      rw [List.length_map]
      exact hW m0 (List.mem_cons_self _ _)
  | succ r2 ih =>
    intro hr
    show (updateHist (histAt mat value r2) (mat.getD (r2 + 1) []) value).length = W
    rw [updateHist_length, List.getD_eq_getElem mat [] hr,
      hW (mat[r2 + 1]) (List.getElem_mem hr), ih (by omega)]
    exact min_self W

theorem histAt_runLen {α : Type} [DecidableEq α] {mat : List (List α)} {value : α}
    {W : Nat} (hW : ∀ row ∈ mat, row.length = W) :
    ∀ r, r < mat.length → ∀ c, c < W →
      (histAt mat value r)[c]? = some (runLen mat value r c) := by
  intro r
  induction r with
  | zero =>
    intro h0 c hc
    cases mat with
    | nil => simp at h0
    | cons m0 rest =>
      have hm : c < m0.length := by
        rw [hW m0 (List.mem_cons_self _ _)]
        exact hc
      have hel : m0[c]? = some (m0[c]) := List.getElem?_eq_getElem hm
      have hcell : cell (m0 :: rest) 0 c = some (m0[c]) := by
        unfold cell
        rw [List.getElem?_cons_zero]
        exact hel
      show (initHist m0 value)[c]? = some (runLen (m0 :: rest) value 0 c)
      rw [initHist_getElem? m0 value c (m0[c]) hel]
      show _ = some (if cell (m0 :: rest) 0 c = some value then 1 else 0)
      rw [hcell]
      by_cases he : m0[c] = value
      · rw [if_pos he, if_pos (by rw [he])]
      · rw [if_neg he, if_neg (fun hcon => he (Option.some.inj hcon))]
  | succ r2 ih =>
    intro hr c hc
    have hr2 : r2 < mat.length := by omega
    have hhist := ih hr2 c hc
    have hc2 : c < (mat[r2 + 1]).length := by
      rw [hW _ (List.getElem_mem hr)]
      exact hc
    have hel : (mat[r2 + 1])[c]? = some ((mat[r2 + 1])[c]) :=
      List.getElem?_eq_getElem hc2
    have hcell : cell mat (r2 + 1) c = some ((mat[r2 + 1])[c]) := by
      unfold cell
      rw [List.getElem?_eq_getElem hr]
      exact hel
    show (updateHist (histAt mat value r2) (mat.getD (r2 + 1) []) value)[c]? = _
    rw [List.getD_eq_getElem mat [] hr,
      updateHist_getElem? _ _ value c _ _ hhist hel]
    show _ = some (if cell mat (r2 + 1) c = some value then runLen mat value r2 c + 1 else 0)
    rw [hcell]
    by_cases he : (mat[r2 + 1])[c] = value
    · rw [if_pos he, if_pos (by rw [he]), Nat.add_comm]
    · rw [if_neg he, if_neg (fun hcon => he (Option.some.inj hcon))]

theorem runLen_le {α : Type} [DecidableEq α] (mat : List (List α)) (value : α) :
    ∀ r c, runLen mat value r c ≤ r + 1 := by
  intro r
  induction r with
  | zero =>
    intro c
    show (if cell mat 0 c = some value then 1 else 0) ≤ 1
    split <;> omega
  | succ r2 ih =>
    intro c
    show (if cell mat (r2 + 1) c = some value then runLen mat value r2 c + 1 else 0) ≤ r2 + 2
    split
    · have := ih c
      omega
    · omega

theorem runLen_char {α : Type} [DecidableEq α] (mat : List (List α)) (value : α) :
    ∀ r c q, q ≤ runLen mat value r c ↔
      (q ≤ r + 1 ∧ ∀ dr, dr < q → cell mat (r - dr) c = some value) := by
  intro r
  induction r with
  | zero =>
    intro c q
    show q ≤ (if cell mat 0 c = some value then 1 else 0) ↔ _
    by_cases hc : cell mat 0 c = some value
    · rw [if_pos hc]
      constructor
      · intro hq
        refine ⟨hq, ?_⟩
        intro dr _
        rw [Nat.zero_sub]
        exact hc
      · rintro ⟨hq1, _⟩
        exact hq1
    · rw [if_neg hc]
      constructor
      · intro hq
        exact ⟨by omega, fun dr hdr => absurd hdr (by omega)⟩
      · rintro ⟨hq1, hall⟩
        by_contra hcon
        have h0 := hall 0 (by omega)
        rw [Nat.sub_zero] at h0
        exact hc h0
  | succ r2 ih =>
    intro c q
    show q ≤ (if cell mat (r2 + 1) c = some value then runLen mat value r2 c + 1 else 0) ↔ _
    by_cases hc : cell mat (r2 + 1) c = some value
    · rw [if_pos hc]
      constructor
      · intro hq
        obtain ⟨hb, hall⟩ := (ih c (q - 1)).mp (by omega)
        refine ⟨by omega, ?_⟩
        intro dr hdr
        cases dr with
        | zero =>
          rw [Nat.sub_zero]
          exact hc
        | succ dr2 =>
          have hidx : r2 + 1 - (dr2 + 1) = r2 - dr2 := by omega
          rw [hidx]
          exact hall dr2 (by omega)
      · rintro ⟨hb, hall⟩
        rcases Nat.eq_zero_or_pos q with h0 | hpos
        · omega
        · have hq2 : q - 1 ≤ runLen mat value r2 c := by
            refine (ih c (q - 1)).mpr ⟨by omega, ?_⟩
            intro dr hdr
            have hidx : r2 - dr = r2 + 1 - (dr + 1) := by omega
            rw [hidx]
            exact hall (dr + 1) (by omega)
          omega
    · rw [if_neg hc]
      constructor
      · intro hq
        exact ⟨by omega, fun dr hdr => absurd hdr (by omega)⟩
      · rintro ⟨hb, hall⟩
        by_contra hcon
        have h0 := hall 0 (by omega)
        rw [Nat.sub_zero] at h0
        exact hc h0

theorem mem_slice_iff {l : List Nat} {i j : Nat} (x : Nat) :
    x ∈ (l.take j).drop i ↔ ∃ c, i ≤ c ∧ c < j ∧ l[c]? = some x := by
  constructor
  · intro hx
    obtain ⟨k, hk⟩ := List.mem_iff_getElem?.mp hx
    rw [List.getElem?_drop, List.getElem?_take] at hk
    by_cases hik : i + k < j
    · rw [if_pos hik] at hk
      exact ⟨i + k, by omega, hik, hk⟩
    · rw [if_neg hik] at hk
      cases hk
  · rintro ⟨c, hic, hcj, hx⟩
    refine List.mem_iff_getElem?.mpr ⟨c - i, ?_⟩
    rw [List.getElem?_drop, List.getElem?_take]
    have hidx : i + (c - i) = c := by omega
    rw [hidx, if_pos hcj]
    exact hx

/-! ## The row scan of `max_size` takes the best area over all rows -/

theorem scanRows_area {α : Type} [DecidableEq α] {mat : List (List α)} {value : α} :
    ∀ (rows : List (List α)) (k : Nat) (best : Nat × Nat) (sp sr c : Nat),
      mat.drop (k + 1) = rows →
      area (scanRows rows value (histAt mat value k) best sp sr c).2.1
        = max (area best)
            (maxList ((List.range' (k + 1) (mat.length - (k + 1))).map
              (fun r => bruteMax (histAt mat value r)))) := by
  intro rows
  induction rows with
  | nil =>
    intro k best sp sr c hdrop
    have hlen : mat.length ≤ k + 1 := List.drop_eq_nil_iff.mp hdrop
    have h0 : mat.length - (k + 1) = 0 := by omega
    rw [h0]
    show area best = max (area best) (maxList [])
    show area best = max (area best) 0
    omega
  | cons row rest ih =>
    intro k best sp sr c hdrop
    have hk1 : k + 1 < mat.length := by
      by_contra hcon
      rw [List.drop_eq_nil_iff.mpr (by omega)] at hdrop
      cases hdrop
    have hrow : mat[k + 1]? = some row := by
      have h1 := List.getElem?_drop mat (k + 1) 0
      rw [hdrop, List.getElem?_cons_zero, Nat.add_zero] at h1
      exact h1.symm
    have hdrop2 : mat.drop (k + 2) = rest := by
      have h2 : mat.drop (k + 1 + 1) = (mat.drop (k + 1)).drop 1 :=
        (List.drop_drop 1 (k + 1) mat).symm
      rw [hdrop] at h2
      exact h2
    have hupd : updateHist (histAt mat value k) row value = histAt mat value (k + 1) := by
      show _ = updateHist (histAt mat value k) (mat.getD (k + 1) []) value
      rw [List.getD_eq_getElem mat [] hk1]
      have h4 : mat[k + 1] = row := by
        have h5 := List.getElem?_eq_getElem hk1
        rw [hrow] at h5
        exact (Option.some.inj h5).symm
      rw [h4]
    cases hms : max_rectangle_size (histAt mat value (k + 1)) with
    | mk m s =>
      have hstep : scanRows (row :: rest) value (histAt mat value k) best sp sr c
          = (if area best < area m
              then scanRows rest value (histAt mat value (k + 1)) m s (c + 1) (c + 1)
              else scanRows rest value (histAt mat value (k + 1)) best sp sr (c + 1)) := by
        simp only [scanRows]
        rw [hupd, hms]
      have hm : area m = bruteMax (histAt mat value (k + 1)) := by
        have h6 := solver_area (histAt mat value (k + 1))
        rw [hms] at h6
        exact h6
      have hrange : mat.length - (k + 1) = (mat.length - (k + 2)) + 1 := by omega
      rw [hstep, hrange, List.range'_succ, List.map_cons]
      show _ = max (area best)
        (max (bruteMax (histAt mat value (k + 1)))
          (maxList ((List.range' (k + 2) (mat.length - (k + 2))).map
            (fun r => bruteMax (histAt mat value r)))))
      rw [← hm]
      by_cases hbm : area best < area m
      · rw [if_pos hbm, ih (k + 1) m s (c + 1) (c + 1) hdrop2]
        rw [max_eq_right (le_trans (le_of_lt hbm) (le_max_left _ _))]
      · rw [if_neg hbm, ih (k + 1) best sp sr (c + 1) hdrop2]
        rw [← max_assoc, max_eq_left (not_lt.mp hbm)]

/-- The area part of `max_size` equals the best `bruteMax` over the
histograms of all rows. -/
theorem max_size_area {α : Type} [DecidableEq α] (mat : List (List α)) (value : α)
    (hne : mat ≠ []) :
    area (max_size mat value).1
      = maxList ((List.range' 0 mat.length).map
          (fun r => bruteMax (histAt mat value r))) := by
  cases mat with
  | nil => exact absurd rfl hne
  | cons m0 rest =>
    cases hms0 : max_rectangle_size (initHist ((m0 :: rest).headD []) value) with
    | mk best0 sp0 =>
      have hA : area (scanRows rest value (initHist ((m0 :: rest).headD []) value)
            best0 sp0 0 0).2.1
          = max (area best0)
              (maxList ((List.range' 1 ((m0 :: rest).length - 1)).map
                (fun r => bruteMax (histAt (m0 :: rest) value r)))) :=
        scanRows_area rest 0 best0 sp0 0 0 rfl
      have hs0 : area best0 = bruteMax (histAt (m0 :: rest) value 0) := by
        have h1 := solver_area (histAt (m0 :: rest) value 0)
        have h2 : max_rectangle_size (histAt (m0 :: rest) value 0) = (best0, sp0) := hms0
        rw [h2] at h1
        exact h1
      have hgoal : area (max_size (m0 :: rest) value).1
          = area (scanRows rest value (initHist ((m0 :: rest).headD []) value)
              best0 sp0 0 0).2.1 := by
        simp only [max_size]
        rw [hms0]
        rfl
      rw [hgoal, hA, hs0]
      have hlen : (m0 :: rest).length = rest.length + 1 := rfl
      rw [hlen, List.range'_succ, List.map_cons]
      show max (bruteMax (histAt (m0 :: rest) value 0)) _
        = max (bruteMax (histAt (m0 :: rest) value 0)) _
      rw [Nat.add_sub_cancel]
      rfl

/-! ## Histogram rectangles correspond to uniform matrix rectangles -/

theorem bruteMax_le_maxUniform {α : Type} [DecidableEq α] {mat : List (List α)}
    {value : α} {W : Nat} (hW : ∀ row ∈ mat, row.length = W)
    (hW0 : (mat.headD []).length = W) (r : Nat) (hr : r < mat.length) :
    bruteMax (histAt mat value r) ≤ maxUniformArea mat value := by
  apply bruteMax_le
  intro i j hi hj
  rcases le_or_lt j i with hij | hij
  · rw [rectArea_of_le hij]
    exact Nat.zero_le _
  · have hWl : (histAt mat value r).length = W := histAt_length hW r hr
    rw [hWl] at hi hj
    have hcol : ∀ c, i ≤ c → c < j →
        listMin (((histAt mat value r).take j).drop i) ≤ runLen mat value r c := by
      intro c hic hcj
      exact listMin_le_of_mem ((mem_slice_iff _).mpr
        ⟨c, hic, hcj, histAt_runLen hW r hr c (by omega)⟩)
    set m := listMin (((histAt mat value r).take j).drop i) with hm
    have hmr : m ≤ r + 1 := by
      have h1 := hcol i (le_refl _) hij
      have h2 := runLen_le mat value r i
      omega
    have huni : isUniform mat value (r + 1 - m) i m (j - i) := by
      intro dr hdr dc hdc
      have hc := (runLen_char mat value r (i + dc) m).mp (hcol (i + dc) (by omega) (by omega))
      have hidx : r + 1 - m + dr = r - (m - 1 - dr) := by omega
      rw [hidx]
      exact hc.2 (m - 1 - dr) (by omega)
    show (j - i) * m ≤ maxUniformArea mat value
    have hmemq : ((r + 1 - m, i), (m, j - i)) ∈
        (Finset.range (mat.length + 1) ×ˢ Finset.range ((mat.headD []).length + 1)) ×ˢ
          (Finset.range (mat.length + 1) ×ˢ Finset.range ((mat.headD []).length + 1)) := by
      simp only [Finset.mem_product, Finset.mem_range, hW0]
      refine ⟨⟨by omega, by omega⟩, by omega, by omega⟩
    have hle := Finset.le_sup
      (f := fun q : (Nat × Nat) × Nat × Nat =>
        if isUniform mat value q.1.1 q.1.2 q.2.1 q.2.2 then q.2.1 * q.2.2 else 0) hmemq
    have hle2 : (if isUniform mat value (r + 1 - m) i m (j - i) then m * (j - i) else 0)
        ≤ maxUniformArea mat value := hle
    rw [if_pos huni] at hle2
    calc (j - i) * m = m * (j - i) := Nat.mul_comm _ _
      _ ≤ _ := hle2

theorem maxUniform_le_rows {α : Type} [DecidableEq α] {mat : List (List α)}
    {value : α} {W : Nat} (hW : ∀ row ∈ mat, row.length = W)
    (hW0 : (mat.headD []).length = W) :
    maxUniformArea mat value
      ≤ maxList ((List.range' 0 mat.length).map
          (fun r => bruteMax (histAt mat value r))) := by
  unfold maxUniformArea
  apply Finset.sup_le
  rintro ⟨⟨t, l⟩, h, w⟩ hq
  show (if isUniform mat value t l h w then h * w else 0) ≤ _
  by_cases huni : isUniform mat value t l h w
  case neg =>
    rw [if_neg huni]
    exact Nat.zero_le _
  case pos =>
  rw [if_pos huni]
  rcases Nat.eq_zero_or_pos h with h0 | hpos
  · subst h0
    simp
  rcases Nat.eq_zero_or_pos w with w0 | wpos
  · subst w0
    simp
  have hcell0 : cell mat (t + (h - 1)) l = some value := by
    have := huni (h - 1) (by omega) 0 (by omega)
    rw [Nat.add_zero] at this
    exact this
  have hrlt : t + (h - 1) < mat.length := by
    unfold cell at hcell0
    cases hrow : mat[t + (h - 1)]? with
    | none =>
      rw [hrow] at hcell0
      exact absurd hcell0 (by simp)
    | some row =>
      obtain ⟨h1, _⟩ := List.getElem?_eq_some.mp hrow
      exact h1
  have hcellw : cell mat (t + (h - 1)) (l + (w - 1)) = some value :=
    huni (h - 1) (by omega) (w - 1) (by omega)
  have hlw : l + w ≤ W := by
    unfold cell at hcellw
    cases hrow : mat[t + (h - 1)]? with
    | none =>
      rw [hrow] at hcellw
      exact absurd hcellw (by simp)
    | some row =>
      rw [hrow] at hcellw
      have hcw : l + (w - 1) < row.length := by
        obtain ⟨h1, _⟩ := List.getElem?_eq_some.mp hcellw
        exact h1
      obtain ⟨hlt2, heq2⟩ := List.getElem?_eq_some.mp hrow
      have hrW : row.length = W := by
        rw [← heq2]
        exact hW _ (List.getElem_mem hlt2)
      omega
  have hcol : ∀ c, l ≤ c → c < l + w → h ≤ runLen mat value (t + (h - 1)) c := by
    intro c hlc hcw
    refine (runLen_char mat value (t + (h - 1)) c h).mpr ⟨by omega, ?_⟩
    intro dr hdr
    have hidx : t + (h - 1) - dr = t + (h - 1 - dr) := by omega
    rw [hidx]
    have hcl := huni (h - 1 - dr) (by omega) (c - l) (by omega)
    have hidx2 : l + (c - l) = c := by omega
    rw [hidx2] at hcl
    exact hcl
  have hWl : (histAt mat value (t + (h - 1))).length = W := histAt_length hW _ hrlt
  have hmin : h ≤ listMin (((histAt mat value (t + (h - 1))).take (l + w)).drop l) := by
    apply le_listMin
    · intro hemp
      have hl1 : (((histAt mat value (t + (h - 1))).take (l + w)).drop l).length = 0 := by
        rw [hemp]
        rfl
      rw [List.length_drop, List.length_take, hWl] at hl1
      omega
    · intro x hx
      obtain ⟨c, hlc, hcw, hval⟩ := (mem_slice_iff x).mp hx
      have hv2 : (histAt mat value (t + (h - 1)))[c]? =
          some (runLen mat value (t + (h - 1)) c) :=
        histAt_runLen hW (t + (h - 1)) hrlt c (by omega)
      rw [hval] at hv2
      have hxe : x = runLen mat value (t + (h - 1)) c := Option.some.inj hv2
      rw [hxe]
      exact hcol c hlc hcw
  have hrect : h * w ≤ rectArea (histAt mat value (t + (h - 1))) l (l + w) := by
    unfold rectArea
    have hww : l + w - l = w := by omega
    rw [hww]
    calc h * w = w * h := Nat.mul_comm _ _
      _ ≤ w * listMin (((histAt mat value (t + (h - 1))).take (l + w)).drop l) :=
        Nat.mul_le_mul_left w hmin
  have hbm : rectArea (histAt mat value (t + (h - 1))) l (l + w)
      ≤ bruteMax (histAt mat value (t + (h - 1))) :=
    le_bruteMax (by rw [hWl]; omega) (by rw [hWl]; omega)
  have hmem2 : bruteMax (histAt mat value (t + (h - 1)))
      ∈ (List.range' 0 mat.length).map (fun r => bruteMax (histAt mat value r)) := by
    apply List.mem_map_of_mem
    rw [List.mem_range'_1]
    omega
  exact le_trans hrect (le_trans hbm (le_maxList hmem2))

/-! ## Claim theorems: concrete behaviour -/

/-- C9: `max_size` returns the specified values on the three concrete
scenarios of the specification: `[[1,1,0],[1,1,0],[0,0,0]]` with target `1`
gives height 2, width 2 at row 0, column 0; `[[0,1,0],[1,1,1],[0,1,0]]`
with target `1` gives height 1, width 3 at row 1, column 0; `[[5]]` with
target `5` gives height 1, width 1 at row 0, column 0, and with target `9`
gives height 0, width 0. -/
theorem max_size_concrete_scenarios :
    max_size [[1,1,0],[1,1,0],[0,0,0]] 1 = ((2,2),((0:Int),(0:Nat))) ∧
    max_size [[0,1,0],[1,1,1],[0,1,0]] 1 = ((1,3),((1:Int),(0:Nat))) ∧
    max_size [[5]] 5 = ((1,1),((0:Int),(0:Nat))) ∧
    (max_size [[5]] 9).1 = (0,0) := by
  refine ⟨?_, ?_, ?_, ?_⟩ <;> decide

/-- C10: on a matrix with zero rows, `max_size` raises no error and
returns size `(0, 0)` with position `(1, 0)`, for every target value:
`next(it, [])` yields the empty first row, the empty histogram solves to
`((0, 0), 0)`, and the position recovery gives `y = 0 - 0 + 1 = 1` and
`x = 0` (the width `0` equals the length of the empty histogram). -/
theorem max_size_empty_matrix {α : Type} [DecidableEq α] (value : α) :
    max_size ([] : List (List α)) value = ((0,0),((1:Int),(0:Nat))) := rfl

theorem max_size_empty_matrix_witness :
    max_size ([] : List (List Nat)) 0 = ((0,0),((1:Int),(0:Nat))) :=
  max_size_empty_matrix 0

/-- C5 counterexample: on the zero-row matrix `max_size` does not fail
with an `EmptyMatrix` error; it produces the full result
`((0,0),(1,0))`, contradicting the claim that no result is produced. -/
theorem empty_matrix_produces_result :
    max_size ([] : List (List Nat)) 7 = ((0,0),((1:Int),(0:Nat))) := by decide

/-- C5 amended: `max_size` on a matrix with zero rows raises no error and
returns size `(0, 0)` with position `(1, 0)` (components stated
separately), for every target value. -/
theorem max_size_nil_components {α : Type} [DecidableEq α] (value : α) :
    (max_size ([] : List (List α)) value).1 = (0,0) ∧
    (max_size ([] : List (List α)) value).2.1 = 1 ∧
    (max_size ([] : List (List α)) value).2.2 = 0 := by
  refine ⟨rfl, rfl, rfl⟩

/-- C4 counterexample: on the ragged matrix `[[1,1],[1]]` with target `1`,
`max_size` does not fail with a `ShapeMismatch` error: the second row is
silently truncated by `zip` and the complete result `((1,2),(0,0))` is
returned. -/
theorem ragged_matrix_produces_result :
    max_size [[1,1],[(1:Nat)]] 1 = ((1,2),((0:Int),(0:Nat))) := by decide

/-- C4 amended: `max_size` performs no shape check; a row of a different
length is silently truncated against the previous histogram by `zip`, so
the updated histogram has length `min` of the two lengths and the scan
proceeds to a normal result. -/
theorem updateHist_truncates {α : Type} [DecidableEq α]
    (hist : List Nat) (row : List α) (value : α) :
    (updateHist hist row value).length = min hist.length row.length := by
  unfold updateHist
  rw [List.length_map, List.length_zip]

/-- C2 (code bug evaluation): on `[[1,1,0,0],[1,1,0,1]]` with target `1`
the code returns height 2, width 2 at `(top_row, left_column) = (0, 2)`,
but the `2 × 2` block at `(0, 2)` contains the cell `(0, 2) = 0 ≠ 1`, so
the returned rectangle is not uniform, violating the claimed invariant. -/
theorem max_size_position_not_uniform :
    max_size [[1,1,0,0],[1,1,0,1]] 1 = ((2,2),((0:Int),(2:Nat))) ∧
    ¬ isUniform [[1,1,0,0],[1,1,0,1]] 1 0 2 2 2 := by
  refine ⟨by decide, ?_⟩
  intro h
  have := h 0 (by decide) 0 (by decide)
  simp [cell] at this

/-- C6 counterexample: in the end-of-scan flush, a frame whose candidate
area is strictly smaller than the current best still overwrites the
recorded start column (the source condition
`area(max(best, cand)) >= area(best)` is satisfied unconditionally).
With one frame `(start 5, height 1)` at `pos = 7` and best `(2, 3)`, the
candidate `(1, 2)` has area `2 < 6`, yet the start column becomes `5`
instead of staying `0`; likewise on the histogram `[2,1,2]` the final
flush frame `(start 2, height 2)` with area `2 < 3` moves the returned
start column to `2`. -/
theorem flush_overwrites_start_on_smaller :
    flushLoop [Info.mk 5 1] (2,3) 0 7 = ((2,3),5) ∧
    max_rectangle_size [2,1,2] = ((1,3),2) := by
  refine ⟨by decide, by decide⟩

/-- C6 amended: for each frame of the end-of-scan flush, the best
rectangle is replaced by the candidate `(frame_height, pos - frame_start)`
exactly when the candidate's area is strictly greater (area ties keep the
current best's dimensions), while the recorded start column is overwritten
by every frame's start unconditionally, so it ends as the start of the
last frame processed (the stack top) whenever any frame remains. -/
theorem flushLoop_spec (frames : List Info) (best : Nat × Nat) (sp pos : Nat) :
    flushLoop frames best sp pos =
      (frames.foldl
        (fun b f =>
          if area b < area (f.height, pos - f.start) then (f.height, pos - f.start) else b)
        best,
       (frames.map Info.start).getLastD sp) := by
  induction frames generalizing best sp with
  | nil => rfl
  | cons f fs ih =>
    show (if area best ≤ area (maxByArea best (f.height, pos - f.start)) then
        flushLoop fs (maxByArea best (f.height, pos - f.start)) f.start pos
      else flushLoop fs best sp pos) = _
    rw [if_pos (le_area_maxByArea _ _), ih]
    rw [List.map_cons, List.getLastD_cons]
    rfl

/-- C7: during the left-to-right scan, a popped frame's candidate
`(frame_height, pos - frame_start)` replaces the running best only if its
area is strictly greater than the current best's; on an equal area the
earlier-found rectangle is kept (Python `max` with a key returns its first
argument on ties).  The scan step carries no recorded start column at all:
the loop continues on the remaining stack with only the best and the
popped frame's start. -/
theorem popLoop_pop_strict (top : Info) (rest : List Info) (best : Nat × Nat)
    (pos start height : Nat) (h : height < top.height) :
    ∃ b1, popLoop (top :: rest) best pos start height = popLoop rest b1 pos top.start height ∧
      (area best < area (top.height, pos - top.start) → b1 = (top.height, pos - top.start)) ∧
      (area (top.height, pos - top.start) ≤ area best → b1 = best) := by
  refine ⟨maxByArea best (top.height, pos - top.start), ?_, ?_, ?_⟩
  · show (if top.height < height then _ else if height < top.height then _ else _) = _
    rw [if_neg (by omega), if_pos h]
  · intro hlt
    unfold maxByArea
    rw [if_pos hlt]
  · intro hle
    unfold maxByArea
    rw [if_neg (not_lt.mpr hle)]

theorem popLoop_pop_strict_witness :
    ∃ b1, popLoop [Info.mk 0 2] (0,0) 1 1 1 = popLoop [] b1 1 0 1 ∧
      (area (0,0) < area (2, 1 - 0) → b1 = (2, 1 - 0)) ∧
      (area (2, 1 - 0) ≤ area (0,0) → b1 = (0,0)) :=
  popLoop_pop_strict (Info.mk 0 2) [] (0,0) 1 1 1 (by decide)

/-- C1: for every non-empty rectangular matrix (`H ≥ 1` rows, all rows of
equal length `W ≥ 1`) and every target value, the `(height, width)` pair
returned by `max_size` satisfies `height * width = maxUniformArea`, the
maximum area over all axis-aligned sub-rectangles of the matrix whose
cells all equal the target value (`0` when the value never occurs). -/
theorem max_size_area_optimal {α : Type} [DecidableEq α] (mat : List (List α))
    (value : α) (W : Nat) (hne : mat ≠ []) (hW : ∀ row ∈ mat, row.length = W)
    (hWpos : 1 ≤ W) :
    area (max_size mat value).1 = maxUniformArea mat value := by
  have hW0 : (mat.headD []).length = W := by
    cases mat with
    | nil => exact absurd rfl hne
    | cons m0 rest => exact hW m0 (List.mem_cons_self _ _)
  rw [max_size_area mat value hne]
  apply le_antisymm
  · apply maxList_le
    intro x hx
    rcases List.mem_map.mp hx with ⟨r, hr, rfl⟩
    rw [List.mem_range'_1] at hr
    exact bruteMax_le_maxUniform hW hW0 r (by omega)
  · exact maxUniform_le_rows hW hW0

theorem max_size_area_optimal_witness :
    ([[5]] : List (List Nat)) ≠ [] ∧ (∀ row ∈ [[(5 : Nat)]], row.length = 1) ∧ 1 ≤ 1 ∧
    area (max_size [[(5 : Nat)]] 5).1 = maxUniformArea [[(5 : Nat)]] 5 :=
  ⟨by decide, by decide, by decide,
    max_size_area_optimal [[(5 : Nat)]] 5 1 (by decide) (by decide) (by decide)⟩

/-- C8: when the previous histogram and the row have the same length `W`,
the updated histogram has length `W` and at each column `c` the value
`previous_histogram[c] + 1` if `row[c]` equals the target value and `0`
otherwise; and the first-row histogram construction coincides with
updating an all-zero histogram of that length. -/
theorem updateHist_pointwise {α : Type} [DecidableEq α] (hist : List Nat)
    (row : List α) (value : α) (hlen : hist.length = row.length) :
    (updateHist hist row value).length = row.length ∧
    (∀ (c hv : Nat) (el : α), hist[c]? = some hv → row[c]? = some el →
      (updateHist hist row value)[c]? = some (if el = value then hv + 1 else 0)) ∧
    initHist row value = updateHist (List.replicate row.length 0) row value := by
  refine ⟨?_, ?_, ?_⟩
  · rw [updateHist_length, hlen, min_self]
  · intro c hv el h1 h2
    rw [updateHist_getElem? hist row value c hv el h1 h2, Nat.add_comm]
  · clear hlen
    induction row with
    | nil => rfl
    | cons e es ih =>
      show (if e = value then 1 else 0) :: initHist es value
        = (if e = value then 1 + 0 else 0)
            :: updateHist (List.replicate es.length 0) es value
      rw [ih]

theorem updateHist_pointwise_witness :
    ([1, 0] : List Nat).length = ([1, 2] : List Nat).length ∧
    (updateHist [1, 0] [1, 2] (1 : Nat))[0]? = some 2 := by
  have h := updateHist_pointwise [1, 0] [1, 2] (1 : Nat) (by decide)
  refine ⟨by decide, ?_⟩
  have h2 := h.2.1 0 1 1 (by decide) (by decide)
  rw [if_pos rfl] at h2
  exact h2

/-- C3: for every histogram, the `(height, width)` pair returned by
`max_rectangle_size` has `height * width` equal to the maximum over all
index pairs `0 ≤ i, j ≤ W` of `(j - i) * min histogram[i..j)` (`0` for
the empty histogram, and pairs with `j ≤ i` contribute `0` through the
truncated subtraction in `rectArea`). -/
theorem max_rectangle_size_area_optimal (histogram : List Nat) :
    area (max_rectangle_size histogram).1 = bruteMax histogram :=
  solver_area histogram

end Simdat
